import Mathlib

/-
A verification development for the gee-cache distributed caching library.

The Go source is embedded shallowly:

* package `lru` (the bounded LRU store) becomes `Lru.Cache` together with
  `Lru.Cache.Get`, `Lru.Cache.Add`, `Lru.Cache.RemoveOldest`; the doubly
  linked `container/list` is modelled as a Lean list whose head is the
  list's front (the code's hot end), and the `cache map[string]*list.Element`
  is represented by positional lookup in that list, which the code keeps
  in exact correspondence with it;
* package `consistenthash` becomes `CH.CMap` with `CH.CMap.AddNodes`,
  `CH.CMap.GetNode` and `CH.CMap.RemoveNode`; `sort.Search`'s binary
  search is embedded as `CH.goSearch`, and a `Remove` that would panic on
  an out-of-range slice index returns `none`;
* package `singleflight`'s `Group.Do` becomes a small-step transition
  system `SF.Step` over explicitly represented thread program counters,
  the mutex, the in-flight map and the per-call state;
* `geecache.Group`'s read path (`Get`, `load`, `getLocally`,
  `getFromPeer`, `populateCache` and the mutex-guarded cache wrapper in
  cache.go) becomes `Ctrl.GroupGet` and friends, with the peer picker,
  the peer transport and the origin getter passed in as oracles; the
  interleaving of several concurrent `Group.Get` calls is modelled by the
  transition system `LP.LStep`.

Machine integers (`int64` byte counters) are embedded as `Int`; the
quantities involved stay far below 2^63 in every statement below, so no
wrap-around is modelled.
-/

namespace Lru

/-- lru.Cache (src/unnamed/part_001 lines 13-24).  `ll` is the doubly linked
list, head = front = hot end; each element is the `entry{key, value}` stored
in the node.  The `cache` field of the Go struct maps a key to the node that
holds it and is represented here by positional lookup in `ll`.  The
`OnEvicted` callback is `nil` in every use by this repository's cache
wrapper and has no influence on the state, so it is not carried. -/
structure Cache (V : Type) where
  maxBytes : Int
  nbytes : Int
  ll : List (String × V)
deriving Repr, DecidableEq

/-- lru.New (lines 38-45): empty list, zero byte count. -/
def New (V : Type) (maxBytes : Int) : Cache V :=
  { maxBytes := maxBytes, nbytes := 0, ll := [] }

/-- Lookup of `c.cache[key]`: the value held by the node of `key`, if any. -/
def lookupEntry {V : Type} : List (String × V) → String → Option V
  | [], _ => none
  | (k, v) :: rest, key => if k = key then some v else lookupEntry rest key

/-- Removal of the (first) node holding `key` from the list; used to model
`MoveToFront` (detach, then re-attach at the front) and `Remove`. -/
def eraseEntry {V : Type} : List (String × V) → String → List (String × V)
  | [], _ => []
  | (k, v) :: rest, key => if k = key then rest else (k, v) :: eraseEntry rest key

/-- lru.Cache.Get (lines 48-58): on a hit the node moves to the front
(`c.ll.MoveToFront(ele)`) and its value is returned; a miss returns the
zero value and leaves the cache untouched. -/
def Cache.Get {V : Type} (c : Cache V) (key : String) : Option V × Cache V :=
  match lookupEntry c.ll key with
  | some v => (some v, { c with ll := (key, v) :: eraseEntry c.ll key })
  | none => (none, c)

/-- lru.Cache.RemoveOldest (lines 86-102): pop the back of the list, drop the
key's mapping and subtract `len(kv.key) + kv.value.Len()` from `nbytes`;
a no-op on an empty list.  `vLen` is the `Value.Len` method of the stored
value type. -/
def Cache.RemoveOldest {V : Type} (vLen : V → Nat) (c : Cache V) : Cache V :=
  match c.ll.getLast? with
  | none => c
  | some (k, v) =>
      { c with ll := c.ll.dropLast,
               nbytes := c.nbytes - ((k.utf8ByteSize : Int) + (vLen v : Int)) }

/-- The eviction loop of lru.Cache.Add (lines 80-82):
`for c.maxBytes != 0 && c.maxBytes < c.nbytes { c.RemoveOldest() }`.
Each iteration on a non-empty list removes exactly one node, so
`c.ll.length` rounds of the loop body reach a fixed point whenever the Go
loop terminates; on an empty list `RemoveOldest` is a no-op, and there the
Go loop would spin forever while this function returns the state unchanged. -/
def evictN {V : Type} (vLen : V → Nat) : Nat → Cache V → Cache V
  | 0, c => c
  | fuel + 1, c =>
      if c.maxBytes ≠ 0 ∧ c.maxBytes < c.nbytes then
        evictN vLen fuel (Cache.RemoveOldest vLen c)
      else c

/-- lru.Cache.Add (lines 61-83).  In the update branch the Go code runs
`kv.value = value` first and only afterwards
`c.nbytes += int64(value.Len()) - int64(kv.value.Len())`, so the
subtrahend is the length of the value that was just stored; `newEntryVal`
below is the content of `kv.value` at the moment `nbytes` is updated.
In the insert branch a fresh node is pushed to the front and
`len(key) + value.Len()` is added.  Both branches end in the eviction
loop. -/
def Cache.Add {V : Type} (vLen : V → Nat) (c : Cache V) (key : String) (value : V) :
    Cache V :=
  let c1 :=
    match lookupEntry c.ll key with
    | some _ =>
        let newEntryVal := value
        { c with ll := (key, newEntryVal) :: eraseEntry c.ll key,
                 nbytes := c.nbytes + ((vLen value : Int) - (vLen newEntryVal : Int)) }
    | none =>
        { c with ll := (key, value) :: c.ll,
                 nbytes := c.nbytes + ((key.utf8ByteSize : Int) + (vLen value : Int)) }
  evictN vLen c1.ll.length c1

/-- lru.Cache.Len (lines 105-107): the number of stored entries. -/
def Cache.Len {V : Type} (c : Cache V) : Nat :=
  c.ll.length

/-- The specification's accounting formula: the sum over all stored entries
of `len(key) + value.Len()`. -/
def specBytes {V : Type} (vLen : V → Nat) (ll : List (String × V)) : Int :=
  ll.foldr (fun e acc => (e.1.utf8ByteSize : Int) + (vLen e.2 : Int) + acc) 0

/-- The key whose text is `i` copies of the letter a; `kn` is injective, so
distinct indices give distinct keys. -/
def kn (i : Nat) : String :=
  String.mk (List.replicate i 'a')

/-- `n` successive `Add` calls with pairwise distinct fresh keys on a cache
built with `maxBytes = 0` (the unbounded configuration). -/
def addA : Nat → Cache (List Nat)
  | 0 => New (List Nat) 0
  | k + 1 => Cache.Add List.length (addA k) (kn k) []

/-- The concrete state for the `nbytes` accounting bug: an unbounded cache
after `Add("k", v₁)` with `v₁.Len() = 1` followed by `Add("k", v₂)` with
`v₂.Len() = 2`. -/
def c1state : Cache (List Nat) :=
  Cache.Add List.length (Cache.Add List.length (New (List Nat) 0) "k" [7]) "k" [7, 8]

end Lru

namespace CH

/-- The loop body of Go's `sort.Search` (the binary search used both by
`Map.Get` and, through `sort.SearchInts`, by `Map.Remove`):

  i, j := 0, n
  for i < j { h := (i+j)/2; if !f(h) { i = h + 1 } else { j = h } }
  return i

The interval `[i, j)` shrinks by at least one element per iteration, so a
fuel of `j - i` (at the top call: `n`) covers every iteration the Go loop
performs. -/
def goSearchF (f : Nat → Bool) : Nat → Nat → Nat → Nat
  | 0, i, _ => i
  | fuel + 1, i, j =>
      if i < j then
        let mid := (i + j) / 2
        if f mid then goSearchF f fuel i mid else goSearchF f fuel (mid + 1) j
      else i

/-- Go's `sort.Search(n, f)`. -/
def goSearch (f : Nat → Bool) (n : Nat) : Nat :=
  goSearchF f n 0 n

/-- The specification's description of what the search computes: the
smallest index whose element is `≥ x` (`x ≤` element), or the length of the
list when there is none. -/
def lowerBound : List Int → Int → Nat
  | [], _ => 0
  | a :: rest, x => if x ≤ a then 0 else lowerBound rest x + 1

/-- consistenthash.Map (consistenthash.go lines 13-22).  The injected hash
function is passed to the operations as an oracle `hfn : String → Int`,
standing for `int(m.hash([]byte(s)))`; `keys` is the hash ring
(`[]int`, kept sorted), and `hashMap` the virtual-hash to node map, with
`none` for an absent entry (Go's `delete` removes the entry and a read of
an absent entry yields the zero string). -/
structure CMap where
  replicas : Nat
  keys : List Int
  hashMap : Int → Option String

/-- The virtual hash of replica `i` of `node`:
`int(m.hash([]byte(strconv.Itoa(i) + key)))`. -/
def nodeHash (hfn : String → Int) (i : Nat) (node : String) : Int :=
  hfn (toString i ++ node)

/-- The virtual hashes of `node` in loop order `i = 0, …, replicas-1`. -/
def replicaHashes (hfn : String → Int) (r : Nat) (node : String) : List Int :=
  (List.range r).map (fun i => nodeHash hfn i node)

/-- One iteration of the inner loop of Map.Add (lines 41-46): append the
hash to the ring and record the virtual-to-real mapping
(last writer wins on a collision). -/
def addOneHash (node : String) (m : CMap) (h : Int) : CMap :=
  { m with keys := m.keys ++ [h],
           hashMap := fun x => if x = h then some node else m.hashMap x }

/-- The per-node loop of Map.Add. -/
def addNode (hfn : String → Int) (m : CMap) (node : String) : CMap :=
  (replicaHashes hfn m.replicas node).foldl (addOneHash node) m

/-- consistenthash.Map.Add (lines 38-50): insert every virtual hash of every
node, then `sort.Ints(m.keys)`.  `sort.Ints` produces the unique sorted
arrangement of the multiset of hashes, which `insertionSort` also
produces. -/
def CMap.AddNodes (hfn : String → Int) (m : CMap) (nodes : List String) : CMap :=
  let m1 := nodes.foldl (addNode hfn) m
  { m1 with keys := List.insertionSort (· ≤ ·) m1.keys }

/-- consistenthash.Map.Get (lines 53-70): empty ring gives the empty string;
otherwise binary-search for the first ring position `≥ hash(key)`, wrapping
to index 0 via `idx % len(m.keys)` when the search returns `len(m.keys)`. -/
def CMap.GetNode (hfn : String → Int) (m : CMap) (key : String) : String :=
  if m.keys.length = 0 then ""
  else
    let h := hfn key
    let idx := goSearch (fun i => decide (h ≤ m.keys.getD i 0)) m.keys.length
    (m.hashMap (m.keys.getD (idx % m.keys.length) 0)).getD ""

/-- One iteration of Map.Remove (lines 74-79): recompute the virtual hash,
locate it with `sort.SearchInts`, splice it out with
`append(m.keys[:idx], m.keys[idx+1:]...)` and delete the mapping.  When
`idx = len(m.keys)` the slice expression `m.keys[idx+1:]` is out of range
and the Go program panics; that outcome is `none`.  A panic aborts the
remaining iterations, so `none` is absorbing. -/
def removeOneHash (acc : Option CMap) (h : Int) : Option CMap :=
  match acc with
  | none => none
  | some m =>
      let idx := goSearch (fun i => decide (h ≤ m.keys.getD i 0)) m.keys.length
      if idx < m.keys.length then
        some { m with keys := m.keys.take idx ++ m.keys.drop (idx + 1),
                      hashMap := fun x => if x = h then none else m.hashMap x }
      else none

/-- consistenthash.Map.Remove (lines 73-80). -/
def CMap.RemoveNode (hfn : String → Int) (m : CMap) (node : String) : Option CMap :=
  (replicaHashes hfn m.replicas node).foldl removeOneHash (some m)

/-- A hash oracle with a collision between replica 0 of node m and replica 0
of node n. -/
def hcol : String → Int :=
  fun s => if s = "0m" then 5 else if s = "0n" then 5 else 0

/-- A one-replica ring holding only node m, built through the API. -/
def mcol : CMap :=
  CMap.AddNodes hcol { replicas := 1, keys := [], hashMap := fun _ => none } ["m"]

/-- A collision-free hash oracle for the amended round-trip statement. -/
def hsep : String → Int :=
  fun s =>
    if s = "0m" then 10 else if s = "1m" then 20
    else if s = "0n" then 15 else if s = "1n" then 25 else 0

/-- A two-replica ring holding only node m, built through the API. -/
def msep : CMap :=
  CMap.AddNodes hsep { replicas := 2, keys := [], hashMap := fun _ => none } ["m"]

/-- Hash oracle for the misuse statement: node n hashes between the two
stored ring positions. -/
def hmid : String → Int :=
  fun s => if s = "0a" then 10 else if s = "0b" then 20
           else if s = "0n" then 15 else 0

/-- A ring holding nodes a and b (one replica each), built through the API. -/
def mmid : CMap :=
  CMap.AddNodes hmid { replicas := 1, keys := [], hashMap := fun _ => none } ["a", "b"]

end CH

namespace SF

/-- The program counter of one thread running singleflight.Group.Do
(src/unnamed/part_000 lines 20-54).  Each constructor marks the point
before the quoted statement runs.

* `start`: before `g.mu.Lock()` (line 22);
* `crit`: holding the mutex, before the `g.m[key]` lookup (line 30);
* `waiting id`: after unlocking on a hit, blocked in `c.wg.Wait()`
  (line 32) on the call `id`;
* `beforeFn id`: after installing call `id` and unlocking (lines 37-41),
  before invoking `fn` (line 44);
* `running id`: `fn()` is in progress (line 44);
* `afterFn id`: `fn` returned and its result is stored in `c.val`, before
  `c.wg.Done()` (line 46);
* `relock id`: before `g.mu.Lock()` of the delete section (line 49);
* `delCrit id`: holding the mutex, before `delete(g.m, key)` (line 50);
* `retd id v`: Do returned `v` (line 53 or line 33). -/
inductive Pc (Val : Type) where
  | start
  | crit
  | waiting (id : Nat)
  | beforeFn (id : Nat)
  | running (id : Nat)
  | afterFn (id : Nat)
  | relock (id : Nat)
  | delCrit (id : Nat)
  | retd (id : Nat) (v : Val)
deriving DecidableEq

/-- One singleflight `call` (lines 7-11): `done` is whether `c.wg.Done()`
has run (the WaitGroup counter has dropped to zero), `val` the stored
result (`none` until `fn` returns), and `exec` records which thread
created the call and therefore runs its `fn` — a history field used only
by the statements, never read by a transition. -/
structure Call (Val : Type) where
  done : Bool
  val : Option Val
  exec : Nat
deriving DecidableEq

/-- The shared state of singleflight.Group (lines 14-17) plus the thread
program counters: `lock` is `g.mu`, `m` the in-flight map (`g.m`; the
lazily allocated nil map behaves as the empty map), `calls` the store of
allocated `call` records addressed by an allocation counter `next`. -/
structure State (Val : Type) where
  lock : Bool
  m : String → Option Nat
  calls : Nat → Option (Call Val)
  next : Nat
  pc : Nat → Pc Val

/-- The initial state: mutex free, no in-flight calls, every thread about
to enter Do. -/
def initState (Val : Type) : State Val :=
  { lock := false, m := fun _ => none, calls := fun _ => none,
    next := 0, pc := fun _ => Pc.start }

/-- The interleaving semantics of any number of threads each running
`Do(tkey t, fn_t)`, where `fn_t` deterministically returns `fnv t` (the
pair of Go results `(val, err)` is folded into the one value `fnv t`).
Statements that run under the mutex form one atomic step, exactly the
grain the mutex enforces in the Go code; `fn` itself runs between two
steps (`fnBegin`, `fnEnd`) so that distinct threads can be inside their
`fn` simultaneously — nothing in the code serialises that region. -/
inductive Step (Val : Type) (tkey : Nat → String) (fnv : Nat → Val) :
    State Val → State Val → Prop where
  /-- line 22: `g.mu.Lock()`. -/
  | lockEnter (s : State Val) (t : Nat) :
      s.pc t = Pc.start → s.lock = false →
      Step Val tkey fnv s { s with lock := true, pc := Function.update s.pc t Pc.crit }
  /-- lines 30-33 up to the Wait: the key is in flight, so unlock and block
  on the call's WaitGroup. -/
  | checkHit (s : State Val) (t : Nat) (id : Nat) :
      s.pc t = Pc.crit → s.m (tkey t) = some id →
      Step Val tkey fnv s
        { s with lock := false, pc := Function.update s.pc t (Pc.waiting id) }
  /-- lines 37-41: allocate a fresh call with an armed WaitGroup, publish it
  in `g.m[key]`, unlock. -/
  | checkMiss (s : State Val) (t : Nat) :
      s.pc t = Pc.crit → s.m (tkey t) = none →
      Step Val tkey fnv s
        { lock := false,
          m := Function.update s.m (tkey t) (some s.next),
          calls := Function.update s.calls s.next (some { done := false, val := none, exec := t }),
          next := s.next + 1,
          pc := Function.update s.pc t (Pc.beforeFn s.next) }
  /-- line 44, entry: `fn()` begins. -/
  | fnBegin (s : State Val) (t : Nat) (id : Nat) :
      s.pc t = Pc.beforeFn id →
      Step Val tkey fnv s { s with pc := Function.update s.pc t (Pc.running id) }
  /-- line 44, exit: `fn()` returns and `c.val, c.err = …` stores the result. -/
  | fnEnd (s : State Val) (t : Nat) (id : Nat) (c : Call Val) :
      s.pc t = Pc.running id → s.calls id = some c →
      Step Val tkey fnv s
        { s with calls := Function.update s.calls id (some { c with val := some (fnv t) }),
                 pc := Function.update s.pc t (Pc.afterFn id) }
  /-- line 46: `c.wg.Done()` releases every waiter. -/
  | wgDone (s : State Val) (t : Nat) (id : Nat) (c : Call Val) :
      s.pc t = Pc.afterFn id → s.calls id = some c →
      Step Val tkey fnv s
        { s with calls := Function.update s.calls id (some { c with done := true }),
                 pc := Function.update s.pc t (Pc.relock id) }
  /-- line 49: `g.mu.Lock()` before the delete. -/
  | lockDel (s : State Val) (t : Nat) (id : Nat) :
      s.pc t = Pc.relock id → s.lock = false →
      Step Val tkey fnv s
        { s with lock := true, pc := Function.update s.pc t (Pc.delCrit id) }
  /-- lines 50-53: `delete(g.m, key)`, unlock, return `c.val, c.err`. -/
  | delExit (s : State Val) (t : Nat) (id : Nat) (c : Call Val) (v : Val) :
      s.pc t = Pc.delCrit id → s.calls id = some c → c.val = some v →
      Step Val tkey fnv s
        { s with lock := false,
                 m := Function.update s.m (tkey t) none,
                 pc := Function.update s.pc t (Pc.retd id v) }
  /-- lines 32-33: `c.wg.Wait()` unblocks once `Done` has run, and the
  waiter returns `c.val, c.err`. -/
  | waitExit (s : State Val) (t : Nat) (id : Nat) (c : Call Val) (v : Val) :
      s.pc t = Pc.waiting id → s.calls id = some c → c.done = true → c.val = some v →
      Step Val tkey fnv s { s with pc := Function.update s.pc t (Pc.retd id v) }

/-- Reachability from the initial state. -/
def Reach (Val : Type) (tkey : Nat → String) (fnv : Nat → Val) (s : State Val) : Prop :=
  Relation.ReflTransGen (Step Val tkey fnv) (initState Val) s

/-- A thread whose pc lies between the map insertion and the map delete of
call `id` — the executor section of Do. -/
def isExecutor {Val : Type} (p : Pc Val) (id : Nat) : Prop :=
  p = Pc.beforeFn id ∨ p = Pc.running id ∨ p = Pc.afterFn id ∨
  p = Pc.relock id ∨ p = Pc.delCrit id

/-- The inductive invariant of the coalescer: (allocation) calls live below
the allocation counter; (ownership) a thread in the executor section of
call `id` is the thread recorded in the call, and `g.m` maps its key to
`id`; (value integrity) a stored result is the value produced by the
call's executor's `fn`; (return integrity) a thread that returned `v` from
call `id` returned the value produced by that call's executor's `fn`. -/
def Inv (Val : Type) (tkey : Nat → String) (fnv : Nat → Val) (s : State Val) : Prop :=
  (∀ id, s.next ≤ id → s.calls id = none)
  ∧ (∀ t id, isExecutor (s.pc t) id →
      s.m (tkey t) = some id ∧ ∃ c, s.calls id = some c ∧ c.exec = t)
  ∧ (∀ id c v, s.calls id = some c → c.val = some v → v = fnv c.exec)
  ∧ (∀ t id v, s.pc t = Pc.retd id v → ∃ c, s.calls id = some c ∧ v = fnv c.exec)

end SF

namespace Ctrl

/-- geecache.ByteView: an immutable byte string; `Len` is its length. -/
abbrev ByteV := List Nat

/-- The mutex-guarded cache wrapper (cache.go lines 10-15): `lru` is `nil`
until the first `add` (lazy initialisation). -/
structure GCache where
  cacheBytes : Int
  lruStore : Option (Lru.Cache ByteV)
deriving DecidableEq

/-- cache.add (cache.go lines 17-27): create the LRU on first use, then
`c.lru.Add(key, value)`. -/
def GCache.add (c : GCache) (key : String) (v : ByteV) : GCache :=
  let base :=
    match c.lruStore with
    | none => Lru.New ByteV c.cacheBytes
    | some l => l
  { c with lruStore := some (Lru.Cache.Add List.length base key v) }

/-- cache.get (cache.go lines 29-41): a `nil` LRU is a miss and is not
initialised; otherwise delegate to `lru.Cache.Get`. -/
def GCache.getOp (c : GCache) (key : String) : Option ByteV × GCache :=
  match c.lruStore with
  | none => (none, c)
  | some l =>
      match Lru.Cache.Get l key with
      | (r, l2) => (r, { c with lruStore := some l2 })

/-- geecache.Group (geecache.go lines 29-35) restricted to the read path:
`peers` carries the registered `PeerPicker`'s `PickPeer` capability
(`none` when no picker is registered, Go's nil `g.peers`), over an
abstract peer handle type `P`.  The origin getter and the peer transport
are supplied to the operations as oracles. -/
structure Group (P : Type) where
  name : String
  mainCache : GCache
  peers : Option (String → Option P)

/-- geecache.Group.getFromPeer (lines 121-127): call the transport and wrap
the bytes as a ByteView. -/
def getFromPeer {P : Type} (peerGet : P → String → Except String ByteV)
    (p : P) (key : String) : Except String ByteV :=
  match peerGet p key with
  | Except.ok bytes => Except.ok bytes
  | Except.error e => Except.error e

/-- geecache.Group.getLocally (lines 110-118): run the origin getter; on
success wrap the (defensively copied) bytes, populate the local cache via
populateCache (line 106-108), and return the value. -/
def getLocally {P : Type} (getter : String → Except String ByteV)
    (g : Group P) (key : String) : Except String ByteV × Group P :=
  match getter key with
  | Except.error e => (Except.error e, g)
  | Except.ok bytes =>
      (Except.ok bytes, { g with mainCache := GCache.add g.mainCache key bytes })

/-- geecache.Group.load (lines 90-104): if a picker is registered and picks
a peer, try the peer; on success return its value without touching the
cache; on any peer failure, and when no peer is picked or no picker is
registered, fall back to `getLocally`. -/
def load {P : Type} (peerGet : P → String → Except String ByteV)
    (getter : String → Except String ByteV)
    (g : Group P) (key : String) : Except String ByteV × Group P :=
  match g.peers with
  | some pick =>
      match pick key with
      | some p =>
          match getFromPeer peerGet p key with
          | Except.ok v => (Except.ok v, g)
          | Except.error _ => getLocally getter g key
      | none => getLocally getter g key
  | none => getLocally getter g key

/-- geecache.Group.Get (lines 69-81): reject the empty key, then consult the
local cache, then fall through to `load`. -/
def GroupGet {P : Type} (peerGet : P → String → Except String ByteV)
    (getter : String → Except String ByteV)
    (g : Group P) (key : String) : Except String ByteV × Group P :=
  if key = "" then (Except.error "key is required", g)
  else
    match GCache.getOp g.mainCache key with
    | (some v, mc) => (Except.ok v, { g with mainCache := mc })
    | (none, mc) => load peerGet getter { g with mainCache := mc } key

end Ctrl

namespace LP

/-- The phases of one thread running geecache.Group.Get for one fixed
missing key on a group without peers: `start` is the entry of Get,
`loading` means the thread is inside `g.getter.Get` (reached through
`load` → `getLocally`, geecache.go lines 90-118), and `done` means Get
returned. -/
inductive LPc where
  | start
  | loading
  | done
deriving DecidableEq

/-- Shared state for two concurrent Group.Get calls on the same key:
`cached` says whether the key is present in `mainCache` (reads and writes
of which are atomic, each being guarded by the cache wrapper's mutex —
the only lock on this path). -/
structure LState where
  cached : Bool
  pcA : LPc
  pcB : LPc
deriving DecidableEq

/-- The interleaving semantics of the two calls.  `Group.load` is invoked
directly by `Get` on a miss — no singleflight `Do`, no lock is held across
the getter — so each thread moves from the atomic miss check straight into
its own `g.getter.Get` execution. -/
inductive LStep : LState → LState → Prop where
  | missA (s : LState) : s.pcA = LPc.start → s.cached = false →
      LStep s { s with pcA := LPc.loading }
  | missB (s : LState) : s.pcB = LPc.start → s.cached = false →
      LStep s { s with pcB := LPc.loading }
  | hitA (s : LState) : s.pcA = LPc.start → s.cached = true →
      LStep s { s with pcA := LPc.done }
  | hitB (s : LState) : s.pcB = LPc.start → s.cached = true →
      LStep s { s with pcB := LPc.done }
  | finishA (s : LState) : s.pcA = LPc.loading →
      LStep s { s with cached := true, pcA := LPc.done }
  | finishB (s : LState) : s.pcB = LPc.loading →
      LStep s { s with cached := true, pcB := LPc.done }

/-- Both callers at the start of Get, key absent from the cache. -/
def linit : LState :=
  { cached := false, pcA := LPc.start, pcB := LPc.start }

end LP

section LruLemmas

open Lru

variable {V : Type}

theorem lru_lookup_none_iff (ll : List (String × V)) (key : String) :
    lookupEntry ll key = none ↔ key ∉ ll.map Prod.fst := by
  induction ll with
  | nil => simp [lookupEntry]
  | cons e rest ih =>
      obtain ⟨k, v⟩ := e
      by_cases hk : k = key
      · subst hk
        simp [lookupEntry]
      · simp [lookupEntry, hk, ih, Ne.symm hk]

theorem lru_erase_length (ll : List (String × V)) (key : String) (v : V)
    (h : lookupEntry ll key = some v) :
    (eraseEntry ll key).length + 1 = ll.length := by
  induction ll with
  | nil => simp [lookupEntry] at h
  | cons e rest ih =>
      obtain ⟨k, w⟩ := e
      by_cases hk : k = key
      · simp [eraseEntry, hk]
      · simp only [lookupEntry, if_neg hk] at h
        simp [eraseEntry, hk, ih h]

theorem lru_lookup_erase_ne (ll : List (String × V)) (key k2 : String)
    (h : k2 ≠ key) :
    lookupEntry (eraseEntry ll key) k2 = lookupEntry ll k2 := by
  induction ll with
  | nil => rfl
  | cons e rest ih =>
      obtain ⟨k, w⟩ := e
      by_cases hk : k = key
      · subst hk
        simp [eraseEntry, lookupEntry, Ne.symm h]
      · simp only [eraseEntry, if_neg hk, lookupEntry]
        by_cases hk2 : k = k2
        · simp [hk2]
        · simp [hk2, ih]

theorem lru_removeOldest_maxBytes (vLen : V → Nat) (c : Cache V) :
    (Cache.RemoveOldest vLen c).maxBytes = c.maxBytes := by
  unfold Cache.RemoveOldest
  cases c.ll.getLast? <;> simp

theorem lru_removeOldest_length (vLen : V → Nat) (c : Cache V)
    (h : c.ll ≠ []) :
    (Cache.RemoveOldest vLen c).ll.length = c.ll.length - 1 := by
  unfold Cache.RemoveOldest
  cases hg : c.ll.getLast? with
  | none => exact absurd (List.getLast?_eq_none_iff.mp hg) h
  | some e => simp [List.length_dropLast]

theorem lru_evictN_maxBytes (vLen : V → Nat) :
    ∀ (fuel : Nat) (c : Cache V), (evictN vLen fuel c).maxBytes = c.maxBytes := by
  intro fuel
  induction fuel with
  | zero => intro c; rfl
  | succ n ih =>
      intro c
      unfold evictN
      by_cases hc : c.maxBytes ≠ 0 ∧ c.maxBytes < c.nbytes
      · simp only [if_pos hc]
        rw [ih, lru_removeOldest_maxBytes]
      · simp [if_neg hc]

theorem lru_evictN_zero (vLen : V → Nat) (fuel : Nat) (c : Cache V)
    (h : c.maxBytes = 0) :
    evictN vLen fuel c = c := by
  cases fuel with
  | zero => rfl
  | succ n =>
      unfold evictN
      rw [if_neg]
      intro hcon
      exact hcon.1 h

theorem lru_evictN_post (vLen : V → Nat) :
    ∀ (fuel : Nat) (c : Cache V), fuel = c.ll.length → 0 < c.maxBytes →
      (evictN vLen fuel c).nbytes ≤ c.maxBytes ∨ (evictN vLen fuel c).ll = [] := by
  intro fuel
  induction fuel with
  | zero =>
      intro c hf _
      right
      simpa [evictN] using (List.length_eq_zero.mp hf.symm)
  | succ n ih =>
      intro c hf hpos
      unfold evictN
      by_cases hc : c.maxBytes ≠ 0 ∧ c.maxBytes < c.nbytes
      · simp only [if_pos hc]
        have hne : c.ll ≠ [] := by
          intro h0
          rw [h0] at hf
          simp at hf
        have hlen : n = (Cache.RemoveOldest vLen c).ll.length := by
          rw [lru_removeOldest_length vLen c hne, ← hf]
          omega
        have hpos2 : 0 < (Cache.RemoveOldest vLen c).maxBytes := by
          rw [lru_removeOldest_maxBytes]; exact hpos
        have := ih (Cache.RemoveOldest vLen c) hlen hpos2
        rwa [lru_removeOldest_maxBytes] at this
      · simp only [if_neg hc]
        left
        rcases not_and_or.mp hc with h1 | h2
        · exact absurd hpos.ne' (by simpa using h1)
        · exact le_of_not_lt h2

theorem lru_kn_injective : Function.Injective kn := by
  intro i j h
  have hd : List.replicate i 'a' = List.replicate j 'a' := congrArg String.data h
  have := congrArg List.length hd
  simpa using this

theorem lru_addA_spec (n : Nat) :
    (addA n).maxBytes = 0 ∧
    (addA n).ll.map Prod.fst = (List.range n).reverse.map kn := by
  induction n with
  | zero => exact ⟨rfl, rfl⟩
  | succ k ih =>
      obtain ⟨hmax, hmap⟩ := ih
      have hfresh : lookupEntry (addA k).ll (kn k) = none := by
        rw [lru_lookup_none_iff, hmap]
        intro hmem
        simp only [List.mem_map, List.mem_reverse, List.mem_range] at hmem
        obtain ⟨j, hj, hkj⟩ := hmem
        exact absurd (lru_kn_injective hkj) hj.ne
      constructor
      · show (Cache.Add List.length (addA k) (kn k) []).maxBytes = 0
        unfold Cache.Add
        simp only [hfresh]
        rw [lru_evictN_maxBytes]
        exact hmax
      · show (Cache.Add List.length (addA k) (kn k) []).ll.map Prod.fst = _
        unfold Cache.Add
        simp only [hfresh]
        rw [lru_evictN_zero _ _ _ (by simpa using hmax)]
        simp only [List.map_cons, hmap, List.range_succ, List.reverse_append]
        rfl

end LruLemmas

/-- C10: `lru.Cache.Get` changes only the recency order: on a hit the node
moves to the front but `nbytes`, `maxBytes`, `Len()`, and the value stored
under every key (hence also the key set of the map) are unchanged; on a
miss nothing changes at all. -/
theorem C10_lru_get_frame {V : Type} (c : Lru.Cache V) (key : String) :
    (Lru.Cache.Get c key).2.nbytes = c.nbytes
    ∧ (Lru.Cache.Get c key).2.maxBytes = c.maxBytes
    ∧ Lru.Cache.Len (Lru.Cache.Get c key).2 = Lru.Cache.Len c
    ∧ ∀ k2, Lru.lookupEntry (Lru.Cache.Get c key).2.ll k2 = Lru.lookupEntry c.ll k2 := by
  cases h : Lru.lookupEntry c.ll key with
  | none => simp [Lru.Cache.Get, h]
  | some v =>
      simp only [Lru.Cache.Get, h]
      refine ⟨trivial, trivial, ?_, ?_⟩
      · simpa [Lru.Cache.Len] using lru_erase_length c.ll key v h
      · intro k2
        by_cases hk : key = k2
        · subst hk
          simp [Lru.lookupEntry, h]
        · simp only [Lru.lookupEntry, if_neg hk]
          exact lru_lookup_erase_ne c.ll key k2 (Ne.symm hk)

/-- C1 (failing input): on the unbounded cache, after `Add("k", v₁)` with
`v₁.Len() = 1` and then `Add("k", v₂)` with `v₂.Len() = 2`, the code
leaves `nbytes` at `len("k") + v₁.Len() = 2` — the update branch computes
its delta only after overwriting `kv.value`, so the delta is always 0 —
while the claimed invariant `nbytes = Σ (len(key) + value.Len())` demands
3, a change of `v₂.Len() − v₁.Len() = 1`. -/
theorem C1_nbytes_accounting_bug :
    Lru.c1state.nbytes = 2
    ∧ Lru.specBytes List.length Lru.c1state.ll = 3
    ∧ Lru.lookupEntry Lru.c1state.ll "k" = some [7, 8]
    ∧ Lru.c1state.maxBytes = 0 := by
  decide

/-- C3: after `Add`, (i) with `maxBytes > 0` the cold end is evicted until
`nbytes ≤ maxBytes` (or the list has been emptied), not just once — the
final conjunct exhibits a run in which a single `Add` performs two
evictions, dropping `Len()` from 2 to 1; (ii) with `maxBytes = 0` no
eviction ever occurs, so `Len()` grows by one for every fresh key; (iii)
iterating `Add` with distinct fresh keys on an unbounded cache makes
`Len()` equal to the number of inserts — unbounded growth. -/
theorem C3_eviction_loop {V : Type} (vLen : V → Nat) (c : Lru.Cache V)
    (key : String) (v : V) :
    (0 < c.maxBytes →
      (Lru.Cache.Add vLen c key v).nbytes ≤ c.maxBytes
      ∨ (Lru.Cache.Add vLen c key v).ll = [])
    ∧ (c.maxBytes = 0 → ∀ w, Lru.lookupEntry c.ll key = some w →
      Lru.Cache.Len (Lru.Cache.Add vLen c key v) = Lru.Cache.Len c)
    ∧ (c.maxBytes = 0 → Lru.lookupEntry c.ll key = none →
      Lru.Cache.Len (Lru.Cache.Add vLen c key v) = Lru.Cache.Len c + 1)
    ∧ (∀ n : Nat, Lru.Cache.Len (Lru.addA n) = n)
    ∧ Lru.Cache.Len (Lru.Cache.Add List.length
        { maxBytes := 10, nbytes := 10, ll := [("aaaa", [0]), ("bbbb", [0])] }
        "cccc" [0, 1, 2, 3, 4, 5]) = 1 := by
  refine ⟨?_, ?_, ?_, ?_, by decide⟩
  · intro hpos
    cases h : Lru.lookupEntry c.ll key with
    | some w =>
        simp only [Lru.Cache.Add, h]
        exact lru_evictN_post vLen _ _ rfl hpos
    | none =>
        simp only [Lru.Cache.Add, h]
        exact lru_evictN_post vLen _ _ rfl hpos
  · intro hzero w h
    simp only [Lru.Cache.Add, h]
    rw [lru_evictN_zero vLen]
    · simpa [Lru.Cache.Len] using lru_erase_length c.ll key w h
    · exact hzero
  · intro hzero h
    simp only [Lru.Cache.Add, h]
    rw [lru_evictN_zero vLen]
    · simp [Lru.Cache.Len]
    · exact hzero
  · intro n
    have h := (lru_addA_spec n).2
    have := congrArg List.length h
    simpa [Lru.Cache.Len] using this

/-- Witness for C3 at concrete inputs: conjunct (i) at a bounded cache and
conjunct (ii) at an unbounded one. -/
theorem C3_eviction_loop_witness :
    ((Lru.Cache.Add List.length
        ({ maxBytes := 5, nbytes := 4, ll := [("kk", [0, 0])] } : Lru.Cache (List Nat))
        "j" [0]).nbytes ≤ 5
      ∨ (Lru.Cache.Add List.length
        ({ maxBytes := 5, nbytes := 4, ll := [("kk", [0, 0])] } : Lru.Cache (List Nat))
        "j" [0]).ll = [])
    ∧ Lru.Cache.Len (Lru.Cache.Add List.length
        ({ maxBytes := 0, nbytes := 4, ll := [("kk", [0, 0])] } : Lru.Cache (List Nat))
        "j" [0])
      = Lru.Cache.Len ({ maxBytes := 0, nbytes := 4, ll := [("kk", [0, 0])] } : Lru.Cache (List Nat)) + 1 :=
  ⟨(C3_eviction_loop List.length _ "j" [0]).1 (by decide),
   (C3_eviction_loop List.length _ "j" [0]).2.2.1 (by decide) (by decide)⟩

/-- C2 (failing input): two concurrent `Group.Get` calls for the same
missing key.  `Group.load` invokes the load path directly — the Group has
no singleflight field and never calls `Do` — so the interleaving in which
both callers pass the miss check before either load completes is
reachable, and in it two executions of the origin load for the same key
are in progress simultaneously, contradicting single-flight coalescing. -/
theorem C2_no_coalescing_two_loads :
    ∃ s : LP.LState, Relation.ReflTransGen LP.LStep LP.linit s
      ∧ s.pcA = LP.LPc.loading ∧ s.pcB = LP.LPc.loading := by
  refine ⟨{ cached := false, pcA := LP.LPc.loading, pcB := LP.LPc.loading }, ?_, rfl, rfl⟩
  have h1 : LP.LStep LP.linit { cached := false, pcA := LP.LPc.loading, pcB := LP.LPc.start } :=
    LP.LStep.missA LP.linit rfl rfl
  have h2 : LP.LStep { cached := false, pcA := LP.LPc.loading, pcB := LP.LPc.start }
      { cached := false, pcA := LP.LPc.loading, pcB := LP.LPc.loading } :=
    LP.LStep.missB _ rfl rfl
  exact Relation.ReflTransGen.tail (Relation.ReflTransGen.tail Relation.ReflTransGen.refl h1) h2

/-- C8: `Group.Get` with the empty key returns the "key is required" error
and the unchanged group state, for every cache content, every peer picker,
every peer transport and every origin getter — so neither the cache nor
any of the capabilities can have been consulted. -/
theorem C8_empty_key_rejected {P : Type}
    (peerGet : P → String → Except String Ctrl.ByteV)
    (getter : String → Except String Ctrl.ByteV) (g : Ctrl.Group P) :
    Ctrl.GroupGet peerGet getter g "" = (Except.error "key is required", g) := by
  simp [Ctrl.GroupGet]

theorem lru_get_miss {V : Type} (c : Lru.Cache V) (key : String)
    (h : (Lru.Cache.Get c key).1 = none) : Lru.Cache.Get c key = (none, c) := by
  cases hl : Lru.lookupEntry c.ll key with
  | none => simp [Lru.Cache.Get, hl]
  | some v => simp [Lru.Cache.Get, hl] at h

theorem gcache_get_miss (c : Ctrl.GCache) (key : String)
    (h : (Ctrl.GCache.getOp c key).1 = none) : (Ctrl.GCache.getOp c key).2 = c := by
  cases hc : c.lruStore with
  | none => simp [Ctrl.GCache.getOp, hc]
  | some l =>
      have h1 : (Lru.Cache.Get l key).1 = none := by
        simpa [Ctrl.GCache.getOp, hc] using h
      have h2 := lru_get_miss l key h1
      cases c
      simp_all [Ctrl.GCache.getOp]

/-- C7: on a local miss, a value fetched successfully from a peer is
returned without being written to `mainCache` (the whole group state is
unchanged), whereas every successful origin load — whether reached
because no picker is registered, no peer was picked, or the peer call
failed — writes the loaded value into `mainCache` before returning it. -/
theorem C7_peer_value_not_cached {P : Type}
    (peerGet : P → String → Except String Ctrl.ByteV)
    (getter : String → Except String Ctrl.ByteV)
    (g : Ctrl.Group P) (key : String) (pick : String → Option P) (p : P)
    (bs : Ctrl.ByteV) (e : String)
    (hk : key ≠ "") (hmiss : (Ctrl.GCache.getOp g.mainCache key).1 = none) :
    (g.peers = some pick → pick key = some p → peerGet p key = Except.ok bs →
      Ctrl.GroupGet peerGet getter g key = (Except.ok bs, g))
    ∧ (g.peers = none → getter key = Except.ok bs →
      Ctrl.GroupGet peerGet getter g key
        = (Except.ok bs, { g with mainCache := Ctrl.GCache.add g.mainCache key bs }))
    ∧ (g.peers = some pick → pick key = none → getter key = Except.ok bs →
      Ctrl.GroupGet peerGet getter g key
        = (Except.ok bs, { g with mainCache := Ctrl.GCache.add g.mainCache key bs }))
    ∧ (g.peers = some pick → pick key = some p → peerGet p key = Except.error e →
      getter key = Except.ok bs →
      Ctrl.GroupGet peerGet getter g key
        = (Except.ok bs, { g with mainCache := Ctrl.GCache.add g.mainCache key bs })) := by
  have hpair : Ctrl.GCache.getOp g.mainCache key = (none, g.mainCache) :=
    Prod.ext_iff.mpr ⟨hmiss, gcache_get_miss g.mainCache key hmiss⟩
  have hstep : Ctrl.GroupGet peerGet getter g key = Ctrl.load peerGet getter g key := by
    simp [Ctrl.GroupGet, hk, hpair]
  refine ⟨?_, ?_, ?_, ?_⟩
  · intro hpeers hpick hpg
    rw [hstep]
    simp [Ctrl.load, hpeers, hpick, Ctrl.getFromPeer, hpg]
  · intro hpeers hget
    rw [hstep]
    simp [Ctrl.load, hpeers, Ctrl.getLocally, hget]
  · intro hpeers hpick hget
    rw [hstep]
    simp [Ctrl.load, hpeers, hpick, Ctrl.getLocally, hget]
  · intro hpeers hpick hpg hget
    rw [hstep]
    simp [Ctrl.load, hpeers, hpick, Ctrl.getFromPeer, hpg, Ctrl.getLocally, hget]

/-- Witness for C7 at concrete inputs: a peer hit leaves the group intact;
with no picker registered the origin value is cached before return. -/
theorem C7_peer_value_not_cached_witness :
    (@Ctrl.GroupGet Unit (fun _ _ => Except.ok [1, 2]) (fun _ => Except.ok [3])
        { name := "g", mainCache := { cacheBytes := 10, lruStore := none },
          peers := some (fun _ => some ()) } "k"
      = (Except.ok [1, 2],
          { name := "g", mainCache := { cacheBytes := 10, lruStore := none },
            peers := some (fun _ => some ()) }))
    ∧ (@Ctrl.GroupGet Unit (fun _ _ => Except.ok [1, 2]) (fun _ => Except.ok [3])
        { name := "g", mainCache := { cacheBytes := 10, lruStore := none }, peers := none } "k"
      = (Except.ok [3],
          { name := "g",
            mainCache := Ctrl.GCache.add { cacheBytes := 10, lruStore := none } "k" [3],
            peers := none })) :=
  ⟨(C7_peer_value_not_cached (fun _ _ => Except.ok [1, 2]) (fun _ => Except.ok [3])
      { name := "g", mainCache := { cacheBytes := 10, lruStore := none },
        peers := some (fun _ => some ()) } "k" (fun _ => some ()) () [1, 2] "e"
      (by decide) (by decide)).1 rfl rfl rfl,
   (C7_peer_value_not_cached (fun _ _ => Except.ok [1, 2]) (fun _ => Except.ok [3])
      { name := "g", mainCache := { cacheBytes := 10, lruStore := none }, peers := none }
      "k" (fun _ => some ()) () [3] "e"
      (by decide) (by decide)).2.1 rfl rfl⟩

theorem ch_goSearchF_eq (f : Nat → Bool) (lb : Nat) :
    ∀ (fuel i j : Nat), j - i ≤ fuel → i ≤ lb → lb ≤ j →
      (∀ k, i ≤ k → k < j → (f k = true ↔ lb ≤ k)) →
      CH.goSearchF f fuel i j = lb := by
  intro fuel
  induction fuel with
  | zero =>
      intro i j hfu hil hlj _
      have : i = lb := by omega
      simpa [CH.goSearchF] using this
  | succ n ih =>
      intro i j hfu hil hlj hchar
      unfold CH.goSearchF
      by_cases hij : i < j
      · simp only [if_pos hij]
        have hmid1 : i ≤ (i + j) / 2 := by omega
        have hmid2 : (i + j) / 2 < j := by omega
        cases hf : f ((i + j) / 2) with
        | true =>
            have hlbmid : lb ≤ (i + j) / 2 := (hchar _ hmid1 hmid2).mp hf
            exact ih i ((i + j) / 2) (by omega) hil hlbmid
              (fun k hk1 hk2 => hchar k hk1 (by omega))
        | false =>
            have hmidlb : (i + j) / 2 < lb := by
              by_contra hcon
              have := (hchar _ hmid1 hmid2).mpr (by omega)
              simp [hf] at this
            exact ih ((i + j) / 2 + 1) j (by omega) (by omega) hlj
              (fun k hk1 hk2 => hchar k (by omega) hk2)
      · simp only [if_neg hij]
        omega

theorem ch_lowerBound_le (l : List Int) (x : Int) :
    CH.lowerBound l x ≤ l.length := by
  induction l with
  | nil => simp [CH.lowerBound]
  | cons a rest ih =>
      by_cases hx : x ≤ a
      · simp [CH.lowerBound, hx]
      · simp only [CH.lowerBound, if_neg hx, List.length_cons]
        omega

theorem ch_getD_eq_getElem (l : List Int) (k : Nat) (hk : k < l.length) :
    l.getD k 0 = l[k] := by
  rw [List.getD_eq_getElem?_getD, List.getElem?_eq_getElem hk]
  rfl

theorem ch_lowerBound_char (l : List Int) (x : Int) (hs : l.Sorted (· ≤ ·)) :
    ∀ k, k < l.length →
      ((decide (x ≤ l.getD k 0) = true) ↔ CH.lowerBound l x ≤ k) := by
  induction l with
  | nil => intro k hk; simp at hk
  | cons a rest ih =>
      have ha : ∀ b ∈ rest, a ≤ b := List.rel_of_sorted_cons hs
      have hs2 : rest.Sorted (· ≤ ·) := List.Sorted.of_cons hs
      intro k hk
      by_cases hx : x ≤ a
      · simp only [CH.lowerBound, if_pos hx, Nat.zero_le, iff_true, decide_eq_true_eq]
        cases k with
        | zero => exact hx
        | succ k2 =>
            have hk2 : k2 < rest.length := by simpa using hk
            have hmem : rest.getD k2 0 ∈ rest := by
              rw [ch_getD_eq_getElem rest k2 hk2]
              exact List.getElem_mem hk2
            exact le_trans hx (ha _ hmem)
      · simp only [CH.lowerBound, if_neg hx]
        cases k with
        | zero => simpa using hx
        | succ k2 =>
            have hk2 : k2 < rest.length := by simpa using hk
            have := ih hs2 k2 hk2
            show (decide (x ≤ rest.getD k2 0) = true) ↔ _
            rw [this]
            omega

theorem ch_goSearch_eq_lowerBound (l : List Int) (x : Int)
    (hs : l.Sorted (· ≤ ·)) :
    CH.goSearch (fun i => decide (x ≤ l.getD i 0)) l.length = CH.lowerBound l x :=
  ch_goSearchF_eq _ (CH.lowerBound l x) l.length 0 l.length (by omega)
    (Nat.zero_le _) (ch_lowerBound_le l x)
    (fun k _ hk2 => ch_lowerBound_char l x hs k hk2)

theorem ch_removeFold_none (H : List Int) :
    H.foldl CH.removeOneHash none = none := by
  induction H with
  | nil => rfl
  | cons h rest ih => simpa [CH.removeOneHash] using ih

theorem ch_remove_all_below (hfn : String → Int) (m : CH.CMap) (node : String)
    (hr : 1 ≤ m.replicas)
    (hbig : ∀ x ∈ m.keys, x < CH.nodeHash hfn 0 node) :
    CH.CMap.RemoveNode hfn m node = none := by
  obtain ⟨r2, hr2⟩ : ∃ r2, m.replicas = r2 + 1 := ⟨m.replicas - 1, by omega⟩
  have hidx : CH.goSearch (fun i => decide (CH.nodeHash hfn 0 node ≤ m.keys.getD i 0))
      m.keys.length = m.keys.length := by
    apply ch_goSearchF_eq _ m.keys.length m.keys.length 0 m.keys.length (by omega)
      (Nat.zero_le _) (le_refl _)
    intro k _ hk2
    constructor
    · intro hdec
      exfalso
      have hmem : m.keys.getD k 0 ∈ m.keys := by
        rw [ch_getD_eq_getElem m.keys k hk2]
        exact List.getElem_mem hk2
      have := hbig _ hmem
      have := of_decide_eq_true hdec
      omega
    · intro hcon
      omega
  have hfirst : CH.removeOneHash (some m) (CH.nodeHash hfn 0 node) = none := by
    simp only [CH.removeOneHash]
    rw [hidx]
    simp
  unfold CH.CMap.RemoveNode
  rw [hr2]
  rw [CH.replicaHashes, List.range_succ_eq_map, List.map_cons, List.foldl_cons, hfirst]
  exact ch_removeFold_none _

/-- C4: consistent-hash `Get` on a ring with sorted hash list: the empty
ring yields the empty string; on a non-empty ring the result is
`hashMap[keys[lowerBound(hash(key)) % len(keys)]]`, where
`lowerBound` is the least index whose stored hash is `≥ hash(key)`
(conjuncts two to four pin that characterisation down), with `% len`
realising the wrap-around to index 0.  `GetNode` is a function of the ring
state and the hash oracle alone, so determinism is inherent. -/
theorem C4_get_node (hfn : String → Int) (m : CH.CMap) (key : String)
    (hs : m.keys.Sorted (· ≤ ·)) :
    (m.keys = [] → CH.CMap.GetNode hfn m key = "")
    ∧ (m.keys ≠ [] →
        CH.CMap.GetNode hfn m key
          = (m.hashMap (m.keys.getD
              (CH.lowerBound m.keys (hfn key) % m.keys.length) 0)).getD ""
        ∧ (∀ j, j < CH.lowerBound m.keys (hfn key) → m.keys.getD j 0 < hfn key)
        ∧ (CH.lowerBound m.keys (hfn key) < m.keys.length →
            hfn key ≤ m.keys.getD (CH.lowerBound m.keys (hfn key)) 0)
        ∧ CH.lowerBound m.keys (hfn key) ≤ m.keys.length) := by
  constructor
  · intro hnil
    simp [CH.CMap.GetNode, hnil]
  · intro hne
    have hlen : m.keys.length ≠ 0 := by
      intro h0
      exact hne (List.length_eq_zero.mp h0)
    refine ⟨?_, ?_, ?_, ch_lowerBound_le _ _⟩
    · simp only [CH.CMap.GetNode, if_neg hlen]
      rw [CH.goSearch, ch_goSearchF_eq _ (CH.lowerBound m.keys (hfn key)) _ 0 _ (by omega)
        (Nat.zero_le _) (ch_lowerBound_le _ _)
        (fun k _ hk2 => ch_lowerBound_char m.keys (hfn key) hs k hk2)]
    · intro j hj
      have hjlen : j < m.keys.length := lt_of_lt_of_le hj (ch_lowerBound_le _ _)
      have := (ch_lowerBound_char m.keys (hfn key) hs j hjlen)
      by_contra hcon
      have hx : hfn key ≤ m.keys.getD j 0 := by omega
      have := this.mp (decide_eq_true hx)
      omega
    · intro hlt
      exact of_decide_eq_true ((ch_lowerBound_char m.keys (hfn key) hs _ hlt).mpr (le_refl _))

/-- Witness for C4 on a concrete two-entry ring. -/
theorem C4_get_node_witness :
    CH.CMap.GetNode (fun s => if s = "q" then 15 else 0)
        { replicas := 1, keys := [10, 20],
          hashMap := fun x => if x = 10 then some "a" else if x = 20 then some "b" else none }
        "q"
      = (((fun x => if x = 10 then some "a" else if x = 20 then some "b" else none) :
            Int → Option String)
          (([10, 20] : List Int).getD
            (CH.lowerBound [10, 20] ((fun s : String => if s = "q" then 15 else 0) "q")
              % ([10, 20] : List Int).length) 0)).getD "" :=
  ((C4_get_node (fun s => if s = "q" then 15 else 0)
      { replicas := 1, keys := [10, 20],
        hashMap := fun x => if x = 10 then some "a" else if x = 20 then some "b" else none }
      "q" (by decide)).2 (by decide)).1

/-- C9: `Remove(n)` is only safe for a node whose virtual hashes are all in
the ring.  (i) On the empty ring the very first iteration panics (the Go
slice expression `m.keys[idx+1:]` with `idx = len(m.keys)` is out of
range), for any node and hash function.  (ii) Whenever replica hash 0 of
`n` exceeds every stored ring hash the same panic occurs.  (iii) On the
concrete ring `[10, 20]` holding nodes a and b, removing a node n whose
hash 15 is absent from the ring splices out node b's entry `20` instead:
the resulting hash list is `[10]` even though `hashMap` still maps `20`
to b. -/
theorem C9_remove_requires_membership :
    (∀ (hfn : String → Int) (r : Nat) (node : String) (hm : Int → Option String),
      1 ≤ r →
      CH.CMap.RemoveNode hfn { replicas := r, keys := [], hashMap := hm } node = none)
    ∧ (∀ (hfn : String → Int) (m : CH.CMap) (node : String),
      1 ≤ m.replicas →
      (∀ x ∈ m.keys, x < CH.nodeHash hfn 0 node) →
      CH.CMap.RemoveNode hfn m node = none)
    ∧ ((CH.CMap.RemoveNode CH.hmid CH.mmid "n").map CH.CMap.keys = some [10]
       ∧ CH.mmid.keys = [10, 20]
       ∧ CH.mmid.hashMap 20 = some "b"
       ∧ CH.nodeHash CH.hmid 0 "n" = 15
       ∧ (15 : Int) ∉ CH.mmid.keys
       ∧ (CH.CMap.RemoveNode CH.hmid CH.mmid "n").map (fun m2 => m2.hashMap 20)
           = some (some "b")) := by
  refine ⟨?_, ?_, ?_⟩
  · intro hfn r node hm hr
    exact ch_remove_all_below hfn _ node hr (by intro x hx; simp at hx)
  · intro hfn m node hr hbig
    exact ch_remove_all_below hfn m node hr hbig
  · refine ⟨by decide, by decide, by decide, by decide, by decide, by decide⟩

/-- Witness for C9 at concrete inputs: the empty ring and a one-entry ring
whose only stored hash lies below the node's replica-0 hash. -/
theorem C9_remove_requires_membership_witness :
    CH.CMap.RemoveNode (fun _ => 7) { replicas := 1, keys := [], hashMap := fun _ => none } "z"
      = none
    ∧ CH.CMap.RemoveNode (fun _ => 99) { replicas := 1, keys := [3], hashMap := fun _ => none } "z"
      = none :=
  ⟨C9_remove_requires_membership.1 (fun _ => 7) 1 "z" (fun _ => none) (by decide),
   C9_remove_requires_membership.2.1 (fun _ => 99)
     { replicas := 1, keys := [3], hashMap := fun _ => none } "z" (by decide)
     (by intro x hx; simp at hx; simp [hx, CH.nodeHash])⟩

theorem ch_lowerBound_lt_of_mem (l : List Int) (h : Int) (hmem : h ∈ l) :
    CH.lowerBound l h < l.length := by
  induction l with
  | nil => simp at hmem
  | cons a rest ih =>
      by_cases hha : h ≤ a
      · simp [CH.lowerBound, hha]
      · have hr : h ∈ rest := by
          rcases List.mem_cons.mp hmem with he | hr
          · exact absurd (le_of_eq he) hha
          · exact hr
        simp only [CH.lowerBound, if_neg hha, List.length_cons]
        exact Nat.succ_lt_succ (ih hr)

theorem ch_splice_eq_erase (l : List Int) (h : Int) (hsrt : l.Sorted (· ≤ ·))
    (hmem : h ∈ l) :
    l.take (CH.lowerBound l h) ++ l.drop (CH.lowerBound l h + 1) = l.erase h := by
  induction l with
  | nil => simp at hmem
  | cons a rest ih =>
      by_cases hha : h ≤ a
      · have hae : a = h := by
          rcases List.mem_cons.mp hmem with he | hr
          · exact he.symm
          · exact le_antisymm (List.rel_of_sorted_cons hsrt _ hr) hha
        subst hae
        simp [CH.lowerBound]
      · have hne : a ≠ h := fun he => hha (le_of_eq he.symm)
        have hr : h ∈ rest := by
          rcases List.mem_cons.mp hmem with he | hr
          · exact absurd (le_of_eq he) hha
          · exact hr
        have hbeq : (a == h) = false := beq_eq_false_iff_ne.mpr hne
        simp only [CH.lowerBound, if_neg hha, List.take_succ_cons, List.drop_succ_cons,
          List.cons_append, List.erase_cons]
        rw [if_neg (by simp [hbeq])]
        rw [ih (List.Sorted.of_cons hsrt) hr]

theorem ch_count_foldl_erase :
    ∀ (H l : List Int) (x : Int),
      (H.foldl (fun acc h => acc.erase h) l).count x = l.count x - H.count x := by
  intro H
  induction H with
  | nil => intro l x; simp
  | cons h rest ih =>
      intro l x
      rw [List.foldl_cons, ih, List.count_erase, List.count_cons]
      by_cases hx : h = x
      · subst hx
        simp only [beq_self_eq_true, if_true]
        omega
      · have hbeq : (h == x) = false := beq_eq_false_iff_ne.mpr hx
        simp only [hbeq, if_false]
        omega

theorem ch_foldl_erase_sorted :
    ∀ (H l : List Int), l.Sorted (· ≤ ·) →
      (H.foldl (fun acc h => acc.erase h) l).Sorted (· ≤ ·) := by
  intro H
  induction H with
  | nil => intro l hl; simpa using hl
  | cons h rest ih =>
      intro l hl
      rw [List.foldl_cons]
      exact ih _ (hl.sublist (List.erase_sublist h l))

theorem ch_cmap_ext {r1 r2 : Nat} {k1 k2 : List Int} {h1 h2 : Int → Option String}
    (hr : r1 = r2) (hk : k1 = k2) (hh : ∀ x, h1 x = h2 x) :
    (⟨r1, k1, h1⟩ : CH.CMap) = ⟨r2, k2, h2⟩ := by
  subst hr
  subst hk
  have hfe : h1 = h2 := funext hh
  rw [hfe]

theorem ch_addFold (node : String) :
    ∀ (H : List Int) (m : CH.CMap),
      H.foldl (CH.addOneHash node) m
        = { m with keys := m.keys ++ H,
                   hashMap := fun x => if x ∈ H then some node else m.hashMap x } := by
  intro H
  induction H with
  | nil =>
      intro m
      cases m with
      | mk r ks hm =>
          simp only [List.foldl_nil]
          exact ch_cmap_ext rfl (by simp) (fun x => by simp)
  | cons h rest ih =>
      intro m
      rw [List.foldl_cons, ih]
      cases m with
      | mk r ks hm =>
          refine ch_cmap_ext rfl (by simp [CH.addOneHash]) (fun x => ?_)
          by_cases hx : x ∈ rest
          · simp [CH.addOneHash, hx]
          · by_cases hxh : x = h
            · simp [CH.addOneHash, hx, hxh]
            · simp [CH.addOneHash, hx, hxh]

theorem ch_removeOne_step (mm : CH.CMap) (h : Int) (hsrt : mm.keys.Sorted (· ≤ ·))
    (hmem : h ∈ mm.keys) :
    CH.removeOneHash (some mm) h
      = some { mm with keys := mm.keys.erase h,
                       hashMap := fun x => if x = h then none else mm.hashMap x } := by
  simp only [CH.removeOneHash]
  rw [ch_goSearch_eq_lowerBound mm.keys h hsrt,
    if_pos (ch_lowerBound_lt_of_mem mm.keys h hmem),
    ch_splice_eq_erase mm.keys h hsrt hmem]

theorem ch_removeFold :
    ∀ (H : List Int) (mm : CH.CMap), mm.keys.Sorted (· ≤ ·) →
      (∀ x, H.count x ≤ mm.keys.count x) →
      H.foldl CH.removeOneHash (some mm)
        = some { mm with keys := H.foldl (fun acc h => acc.erase h) mm.keys,
                         hashMap := fun x => if x ∈ H then none else mm.hashMap x } := by
  intro H
  induction H with
  | nil =>
      intro mm hsrt hcnt
      cases mm with
      | mk r ks hm =>
          simp only [List.foldl_nil]
          exact congrArg some (ch_cmap_ext rfl rfl (fun x => by simp))
  | cons h rest ih =>
      intro mm hsrt hcnt
      obtain ⟨r, ks, hm⟩ := mm
      have hmem : h ∈ ks := by
        have h1 := hcnt h
        simp only [List.count_cons, beq_self_eq_true, if_true] at h1
        exact List.count_pos_iff.mp (by omega)
      rw [List.foldl_cons, ch_removeOne_step ⟨r, ks, hm⟩ h hsrt hmem]
      have hsrt2 : (ks.erase h).Sorted (· ≤ ·) := hsrt.sublist (List.erase_sublist h ks)
      have hcnt2 : ∀ x, rest.count x
          ≤ (({ replicas := r, keys := ks.erase h,
                hashMap := fun x => if x = h then none else hm x } : CH.CMap)).keys.count x := by
        intro x
        have h1 := hcnt x
        rw [List.count_cons] at h1
        show rest.count x ≤ (ks.erase h).count x
        rw [List.count_erase]
        by_cases hx : h = x
        · subst hx
          simp only [beq_self_eq_true, if_true] at h1 ⊢
          omega
        · have hbeq : (h == x) = false := beq_eq_false_iff_ne.mpr hx
          simp only [hbeq, if_false] at h1 ⊢
          omega
      rw [ih _ hsrt2 hcnt2]
      refine congrArg some (ch_cmap_ext rfl ?_ (fun x => ?_))
      · rw [List.foldl_cons]
      · by_cases hx : x ∈ rest
        · simp [hx]
        · by_cases hxh : x = h
          · simp [hx, hxh]
          · simp [hx, hxh]

/-- C6 (counterexample): on the one-replica ring built by `Add(["m"])` under
a hash function that sends replica 0 of m and replica 0 of n to the same
value 5, `Add(["n"])` overwrites `hashMap[5]` (last writer wins) and the
following `Remove("n")` deletes the entry outright, so the round trip ends
with `hashMap[5]` absent instead of mapping to m: the ring is not restored
to its pre-add state. -/
theorem C6_roundtrip_counterexample :
    CH.CMap.RemoveNode CH.hcol (CH.CMap.AddNodes CH.hcol CH.mcol ["n"]) "n"
      ≠ some CH.mcol := by
  intro hEq
  have h1 : (CH.CMap.RemoveNode CH.hcol (CH.CMap.AddNodes CH.hcol CH.mcol ["n"]) "n").map
      (fun m2 => m2.hashMap 5) = some (none : Option String) := by decide
  rw [hEq] at h1
  have h2 : CH.mcol.hashMap 5 = some "m" := by decide
  simp [h2] at h1

/-- C6 (amended): `Add([n]); Remove(n)` restores the exact pre-add ring
state — same sorted hash list, same hash-to-node mapping — provided the
virtual hashes of `n` collide with no hash already on the ring; the ring
state is assumed well formed (sorted hash list, mapping entries only at
ring hashes), as every state built through the API is. -/
theorem C6_add_remove_roundtrip (hfn : String → Int) (m : CH.CMap) (node : String)
    (hs : m.keys.Sorted (· ≤ ·))
    (hfresh : ∀ h ∈ CH.replicaHashes hfn m.replicas node, h ∉ m.keys)
    (hdom : ∀ x, m.hashMap x ≠ none → x ∈ m.keys) :
    CH.CMap.RemoveNode hfn (CH.CMap.AddNodes hfn m [node]) node = some m := by
  obtain ⟨r, ks, hm⟩ := m
  simp only [CH.CMap.AddNodes, List.foldl_cons, List.foldl_nil, CH.addNode] at *
  rw [ch_addFold] at *
  set H := CH.replicaHashes hfn r node with hH
  set S := List.insertionSort (· ≤ ·) (ks ++ H) with hS
  have hsortS : S.Sorted (· ≤ ·) := List.sorted_insertionSort (· ≤ ·) _
  have hpermS : S.Perm (ks ++ H) := List.perm_insertionSort (· ≤ ·) _
  have hcnt : ∀ x, H.count x ≤ S.count x := by
    intro x
    rw [hpermS.count_eq]
    simp only [List.count_append]
    omega
  show (CH.replicaHashes hfn r node).foldl CH.removeOneHash _ = _
  rw [← hH, ch_removeFold H _ hsortS hcnt]
  refine congrArg some (ch_cmap_ext rfl ?_ (fun x => ?_))
  · show H.foldl (fun acc h => acc.erase h) S = ks
    refine List.eq_of_perm_of_sorted (List.perm_iff_count.mpr fun x => ?_)
      (ch_foldl_erase_sorted H S hsortS) hs
    rw [ch_count_foldl_erase, hpermS.count_eq]
    simp only [List.count_append]
    omega
  · show (if x ∈ H then none else if x ∈ H then some node else hm x) = hm x
    by_cases hx : x ∈ H
    · simp only [if_pos hx]
      by_contra hne
      exact hfresh x hx (hdom x fun h0 => hne h0.symm)
    · simp [hx]

/-- Witness for the amended C6 on a concrete two-replica ring holding node m
with hashes 10 and 20, where node n's hashes 15 and 25 are collision-free. -/
theorem C6_add_remove_roundtrip_witness :
    CH.CMap.RemoveNode CH.hsep (CH.CMap.AddNodes CH.hsep CH.msep ["n"]) "n"
      = some CH.msep := by
  have hmapeval : CH.msep.hashMap
      = fun x => if x = 20 then some "m" else if x = 10 then some "m" else none := rfl
  refine C6_add_remove_roundtrip CH.hsep CH.msep "n" (by decide) (by decide) ?_
  intro x hx
  rw [hmapeval] at hx
  by_cases h20 : x = 20
  · subst h20
    decide
  · by_cases h10 : x = 10
    · subst h10
      decide
    · simp [h20, h10] at hx

theorem sf_inv_step {Val : Type} (tkey : Nat → String) (fnv : Nat → Val)
    {s s2 : SF.State Val} (hinv : SF.Inv Val tkey fnv s)
    (hstep : SF.Step Val tkey fnv s s2) : SF.Inv Val tkey fnv s2 := by
  obtain ⟨hA, hB, hC, hD⟩ := hinv
  cases hstep with
  | lockEnter t hpc hlock =>
      refine ⟨hA, ?_, hC, ?_⟩
      · intro t2 id hex
        dsimp only at hex ⊢
        by_cases ht : t2 = t
        · subst ht
          rw [Function.update_same] at hex
          simp [SF.isExecutor] at hex
        · rw [Function.update_noteq ht] at hex
          exact hB t2 id hex
      · intro t2 id v hret
        dsimp only at hret ⊢
        by_cases ht : t2 = t
        · subst ht
          rw [Function.update_same] at hret
          simp at hret
        · rw [Function.update_noteq ht] at hret
          exact hD t2 id v hret
  | checkHit t id0 hpc hm0 =>
      refine ⟨hA, ?_, hC, ?_⟩
      · intro t2 id hex
        dsimp only at hex ⊢
        by_cases ht : t2 = t
        · subst ht
          rw [Function.update_same] at hex
          simp [SF.isExecutor] at hex
        · rw [Function.update_noteq ht] at hex
          exact hB t2 id hex
      · intro t2 id v hret
        dsimp only at hret ⊢
        by_cases ht : t2 = t
        · subst ht
          rw [Function.update_same] at hret
          simp at hret
        · rw [Function.update_noteq ht] at hret
          exact hD t2 id v hret
  | checkMiss t hpc hm0 =>
      refine ⟨?_, ?_, ?_, ?_⟩
      · intro id hid
        dsimp only at hid ⊢
        rw [Function.update_noteq (by omega : id ≠ s.next)]
        exact hA id (by omega)
      · intro t2 id hex
        dsimp only at hex ⊢
        by_cases ht : t2 = t
        · subst ht
          rw [Function.update_same] at hex
          simp only [SF.isExecutor, SF.Pc.beforeFn.injEq, reduceCtorEq, or_false] at hex
          subst hex
          refine ⟨?_, ⟨{ done := false, val := none, exec := t2 }, ?_, rfl⟩⟩
          · rw [Function.update_same]
          · rw [Function.update_same]
        · rw [Function.update_noteq ht] at hex
          obtain ⟨hmm, c2, hc2, he2⟩ := hB t2 id hex
          have hkey : tkey t2 ≠ tkey t := by
            intro hk
            rw [hk, hm0] at hmm
            simp at hmm
          have hidlt : ¬ s.next ≤ id := by
            intro hle
            rw [hA id hle] at hc2
            simp at hc2
          refine ⟨?_, c2, ?_, he2⟩
          · rw [Function.update_noteq hkey]
            exact hmm
          · rw [Function.update_noteq (by omega : id ≠ s.next)]
            exact hc2
      · intro id c v hc hv
        dsimp only at hc
        by_cases hid : id = s.next
        · subst hid
          rw [Function.update_same] at hc
          injection hc with hcc
          rw [← hcc] at hv
          simp at hv
        · rw [Function.update_noteq hid] at hc
          exact hC id c v hc hv
      · intro t2 id v hret
        dsimp only at hret ⊢
        by_cases ht : t2 = t
        · subst ht
          rw [Function.update_same] at hret
          simp at hret
        · rw [Function.update_noteq ht] at hret
          obtain ⟨c2, hc2, hv2⟩ := hD t2 id v hret
          have hidlt : ¬ s.next ≤ id := by
            intro hle
            rw [hA id hle] at hc2
            simp at hc2
          refine ⟨c2, ?_, hv2⟩
          rw [Function.update_noteq (by omega : id ≠ s.next)]
          exact hc2
  | fnBegin t id0 hpc =>
      refine ⟨hA, ?_, hC, ?_⟩
      · intro t2 id hex
        dsimp only at hex ⊢
        by_cases ht : t2 = t
        · subst ht
          rw [Function.update_same] at hex
          simp only [SF.isExecutor, SF.Pc.running.injEq, reduceCtorEq, false_or, or_false] at hex
          subst hex
          exact hB t2 id0 (Or.inl hpc)
        · rw [Function.update_noteq ht] at hex
          exact hB t2 id hex
      · intro t2 id v hret
        dsimp only at hret ⊢
        by_cases ht : t2 = t
        · subst ht
          rw [Function.update_same] at hret
          simp at hret
        · rw [Function.update_noteq ht] at hret
          exact hD t2 id v hret
  | fnEnd t id0 c0 hpc hc0 =>
      have hex_t := hB t id0 (Or.inr (Or.inl hpc))
      obtain ⟨hm_t, cx, hcx, hex⟩ := hex_t
      have hc0exec : c0.exec = t := by
        rw [hc0] at hcx
        injection hcx with hcc
        rw [hcc]
        exact hex
      have hid0lt : ¬ s.next ≤ id0 := by
        intro hle
        rw [hA id0 hle] at hc0
        simp at hc0
      refine ⟨?_, ?_, ?_, ?_⟩
      · intro id hid
        dsimp only at hid ⊢
        rw [Function.update_noteq (by omega : id ≠ id0)]
        exact hA id hid
      · intro t2 id hex2
        dsimp only at hex2 ⊢
        by_cases ht : t2 = t
        · subst ht
          rw [Function.update_same] at hex2
          simp only [SF.isExecutor, SF.Pc.afterFn.injEq, reduceCtorEq, false_or, or_false] at hex2
          subst hex2
          refine ⟨hm_t, ⟨{ c0 with val := some (fnv t2) }, ?_, hc0exec⟩⟩
          rw [Function.update_same]
        · rw [Function.update_noteq ht] at hex2
          obtain ⟨hmm, c2, hc2, he2⟩ := hB t2 id hex2
          have hne : id ≠ id0 := by
            intro hcon
            subst hcon
            rw [hc0] at hc2
            injection hc2 with hcc
            rw [← hcc] at he2
            exact ht (he2.symm.trans hc0exec)
          refine ⟨hmm, c2, ?_, he2⟩
          rw [Function.update_noteq hne]
          exact hc2
      · intro id c v hc hv
        dsimp only at hc
        by_cases hid : id = id0
        · subst hid
          rw [Function.update_same] at hc
          injection hc with hcc
          rw [← hcc] at hv ⊢
          injection hv with hvv
          rw [← hvv]
          show fnv t = fnv c0.exec
          rw [hc0exec]
        · rw [Function.update_noteq hid] at hc
          exact hC id c v hc hv
      · intro t2 id v hret
        dsimp only at hret ⊢
        by_cases ht : t2 = t
        · subst ht
          rw [Function.update_same] at hret
          simp at hret
        · rw [Function.update_noteq ht] at hret
          obtain ⟨c2, hc2, hv2⟩ := hD t2 id v hret
          by_cases hid : id = id0
          · subst hid
            rw [hc0] at hc2
            injection hc2 with hcc
            refine ⟨{ c0 with val := some (fnv t) }, ?_, ?_⟩
            · rw [Function.update_same]
            · rw [hv2, ← hcc]
          · refine ⟨c2, ?_, hv2⟩
            rw [Function.update_noteq hid]
            exact hc2
  | wgDone t id0 c0 hpc hc0 =>
      have hex_t := hB t id0 (Or.inr (Or.inr (Or.inl hpc)))
      obtain ⟨hm_t, cx, hcx, hex⟩ := hex_t
      have hc0exec : c0.exec = t := by
        rw [hc0] at hcx
        injection hcx with hcc
        rw [hcc]
        exact hex
      have hid0lt : ¬ s.next ≤ id0 := by
        intro hle
        rw [hA id0 hle] at hc0
        simp at hc0
      refine ⟨?_, ?_, ?_, ?_⟩
      · intro id hid
        dsimp only at hid ⊢
        rw [Function.update_noteq (by omega : id ≠ id0)]
        exact hA id hid
      · intro t2 id hex2
        dsimp only at hex2 ⊢
        by_cases ht : t2 = t
        · subst ht
          rw [Function.update_same] at hex2
          simp only [SF.isExecutor, SF.Pc.relock.injEq, reduceCtorEq, false_or, or_false] at hex2
          subst hex2
          refine ⟨hm_t, ⟨{ c0 with done := true }, ?_, hc0exec⟩⟩
          rw [Function.update_same]
        · rw [Function.update_noteq ht] at hex2
          obtain ⟨hmm, c2, hc2, he2⟩ := hB t2 id hex2
          have hne : id ≠ id0 := by
            intro hcon
            subst hcon
            rw [hc0] at hc2
            injection hc2 with hcc
            rw [← hcc] at he2
            exact ht (he2.symm.trans hc0exec)
          refine ⟨hmm, c2, ?_, he2⟩
          rw [Function.update_noteq hne]
          exact hc2
      · intro id c v hc hv
        dsimp only at hc
        by_cases hid : id = id0
        · subst hid
          rw [Function.update_same] at hc
          injection hc with hcc
          rw [← hcc] at hv
          exact hcc ▸ (hC id c0 v hc0 hv)
        · rw [Function.update_noteq hid] at hc
          exact hC id c v hc hv
      · intro t2 id v hret
        dsimp only at hret ⊢
        by_cases ht : t2 = t
        · subst ht
          rw [Function.update_same] at hret
          simp at hret
        · rw [Function.update_noteq ht] at hret
          obtain ⟨c2, hc2, hv2⟩ := hD t2 id v hret
          by_cases hid : id = id0
          · subst hid
            rw [hc0] at hc2
            injection hc2 with hcc
            refine ⟨{ c0 with done := true }, ?_, ?_⟩
            · rw [Function.update_same]
            · rw [hv2, ← hcc]
          · refine ⟨c2, ?_, hv2⟩
            rw [Function.update_noteq hid]
            exact hc2
  | lockDel t id0 hpc hlock =>
      refine ⟨hA, ?_, hC, ?_⟩
      · intro t2 id hex
        dsimp only at hex ⊢
        by_cases ht : t2 = t
        · subst ht
          rw [Function.update_same] at hex
          simp only [SF.isExecutor, SF.Pc.delCrit.injEq, reduceCtorEq, false_or, or_false] at hex
          subst hex
          exact hB t2 id0 (Or.inr (Or.inr (Or.inr (Or.inl hpc))))
        · rw [Function.update_noteq ht] at hex
          exact hB t2 id hex
      · intro t2 id v hret
        dsimp only at hret ⊢
        by_cases ht : t2 = t
        · subst ht
          rw [Function.update_same] at hret
          simp at hret
        · rw [Function.update_noteq ht] at hret
          exact hD t2 id v hret
  | delExit t id0 c0 v0 hpc hc0 hval =>
      have hex_t := hB t id0 (Or.inr (Or.inr (Or.inr (Or.inr hpc))))
      obtain ⟨hm_t, cx, hcx, hex⟩ := hex_t
      have hc0exec : c0.exec = t := by
        rw [hc0] at hcx
        injection hcx with hcc
        rw [hcc]
        exact hex
      refine ⟨hA, ?_, hC, ?_⟩
      · intro t2 id hex2
        dsimp only at hex2 ⊢
        by_cases ht : t2 = t
        · subst ht
          rw [Function.update_same] at hex2
          simp [SF.isExecutor] at hex2
        · rw [Function.update_noteq ht] at hex2
          obtain ⟨hmm, c2, hc2, he2⟩ := hB t2 id hex2
          have hkey : tkey t2 ≠ tkey t := by
            intro hk
            rw [hk, hm_t] at hmm
            injection hmm with hidq
            subst hidq
            rw [hc0] at hc2
            injection hc2 with hcc
            rw [← hcc] at he2
            exact ht (he2.symm.trans hc0exec)
          refine ⟨?_, c2, hc2, he2⟩
          rw [Function.update_noteq hkey]
          exact hmm
      · intro t2 id v hret
        dsimp only at hret ⊢
        by_cases ht : t2 = t
        · subst ht
          rw [Function.update_same] at hret
          injection hret with hid hv
          subst hid
          subst hv
          exact ⟨c0, hc0, hC id0 c0 v0 hc0 hval⟩
        · rw [Function.update_noteq ht] at hret
          exact hD t2 id v hret
  | waitExit t id0 c0 v0 hpc hc0 hdone hval =>
      refine ⟨hA, ?_, hC, ?_⟩
      · intro t2 id hex2
        dsimp only at hex2 ⊢
        by_cases ht : t2 = t
        · subst ht
          rw [Function.update_same] at hex2
          simp [SF.isExecutor] at hex2
        · rw [Function.update_noteq ht] at hex2
          exact hB t2 id hex2
      · intro t2 id v hret
        dsimp only at hret ⊢
        by_cases ht : t2 = t
        · subst ht
          rw [Function.update_same] at hret
          injection hret with hid hv
          subst hid
          subst hv
          exact ⟨c0, hc0, hC id0 c0 v0 hc0 hval⟩
        · rw [Function.update_noteq ht] at hret
          exact hD t2 id v hret

theorem sf_reach_inv {Val : Type} (tkey : Nat → String) (fnv : Nat → Val)
    (s : SF.State Val) (h : SF.Reach Val tkey fnv s) : SF.Inv Val tkey fnv s := by
  unfold SF.Reach at h
  induction h with
  | refl =>
      refine ⟨fun id _ => rfl, ?_, ?_, ?_⟩
      · intro t id hex
        simp [SF.initState, SF.isExecutor] at hex
      · intro id c v hc hv
        simp [SF.initState] at hc
      · intro t id v hret
        simp [SF.initState] at hret
  | tail hsteps hstep ih => exact sf_inv_step tkey fnv ih hstep

/-- C5: for the singleflight coalescer, over every interleaving of any
number of threads each running `Do(tkey t, fn_t)`: (i) two distinct
threads are never simultaneously inside `fn` for the same key; (ii) every
caller that returned from call `id` returned the value produced by that
call's unique executing `fn` — so (iii) all callers coalesced on one call
return the same result; and (iv) from any reachable state in which the
key's in-flight entry has been deleted, an arriving `Do` can run its own
`fn` afresh (a fresh call, executed by the arriving thread). -/
theorem C5_singleflight_do (Val : Type) (tkey : Nat → String) (fnv : Nat → Val)
    (s : SF.State Val) (hr : SF.Reach Val tkey fnv s) :
    (∀ t t2 id id2, t ≠ t2 → s.pc t = SF.Pc.running id → s.pc t2 = SF.Pc.running id2 →
      tkey t = tkey t2 → False)
    ∧ (∀ t id v, s.pc t = SF.Pc.retd id v → ∃ c, s.calls id = some c ∧ v = fnv c.exec)
    ∧ (∀ t t2 id v v2, s.pc t = SF.Pc.retd id v → s.pc t2 = SF.Pc.retd id v2 → v = v2)
    ∧ (∀ t k, s.m k = none → s.lock = false → s.pc t = SF.Pc.start → tkey t = k →
        ∃ s2, Relation.ReflTransGen (SF.Step Val tkey fnv) s s2
          ∧ s2.pc t = SF.Pc.running s.next
          ∧ s2.calls s.next = some { done := false, val := none, exec := t }) := by
  obtain ⟨hA, hB, hC, hD⟩ := sf_reach_inv tkey fnv s hr
  refine ⟨?_, hD, ?_, ?_⟩
  · intro t t2 id id2 hne h1 h2 hk
    obtain ⟨hm1, c1, hc1, he1⟩ := hB t id (Or.inr (Or.inl h1))
    obtain ⟨hm2, c2, hc2, he2⟩ := hB t2 id2 (Or.inr (Or.inl h2))
    rw [hk, hm2] at hm1
    injection hm1 with hid
    subst hid
    rw [hc1] at hc2
    injection hc2 with hcc
    rw [← hcc] at he2
    exact hne (he1.symm.trans he2)
  · intro t t2 id v v2 h1 h2
    obtain ⟨c1, hc1, hv1⟩ := hD t id v h1
    obtain ⟨c2, hc2, hv2⟩ := hD t2 id v2 h2
    rw [hc1] at hc2
    injection hc2 with hcc
    rw [hv1, hv2, hcc]
  · intro t k hmk hlock hpc hkey
    have hmt : s.m (tkey t) = none := by rw [hkey]; exact hmk
    have step1 := @SF.Step.lockEnter Val tkey fnv s t hpc hlock
    have hpc1 : (Function.update s.pc t SF.Pc.crit) t = SF.Pc.crit :=
      Function.update_same t SF.Pc.crit s.pc
    have step2 := @SF.Step.checkMiss Val tkey fnv
      { s with lock := true, pc := Function.update s.pc t SF.Pc.crit } t hpc1 hmt
    have hpc2 : (Function.update (Function.update s.pc t SF.Pc.crit) t
        (SF.Pc.beforeFn s.next)) t = SF.Pc.beforeFn s.next :=
      Function.update_same t (SF.Pc.beforeFn s.next) (Function.update s.pc t SF.Pc.crit)
    have step3 := @SF.Step.fnBegin Val tkey fnv
      { lock := false,
        m := Function.update s.m (tkey t) (some s.next),
        calls := Function.update s.calls s.next
          (some { done := false, val := none, exec := t }),
        next := s.next + 1,
        pc := Function.update (Function.update s.pc t SF.Pc.crit) t
          (SF.Pc.beforeFn s.next) } t s.next hpc2
    refine ⟨_, Relation.ReflTransGen.tail (Relation.ReflTransGen.tail
      (Relation.ReflTransGen.tail Relation.ReflTransGen.refl step1) step2) step3, ?_, ?_⟩
    · dsimp only
      rw [Function.update_same]
    · dsimp only
      rw [Function.update_same]

/-- Witness for C5: the initial state is reachable, the mutex is free and
no call is in flight, so thread 0 can run its `fn` afresh. -/
theorem C5_singleflight_do_witness :
    ∃ s2, Relation.ReflTransGen (SF.Step Nat (fun _ => "k") (fun t => t))
        (SF.initState Nat) s2
      ∧ s2.pc 0 = SF.Pc.running (SF.initState Nat).next
      ∧ s2.calls (SF.initState Nat).next = some { done := false, val := none, exec := 0 } :=
  (C5_singleflight_do Nat (fun _ => "k") (fun t => t) (SF.initState Nat)
      Relation.ReflTransGen.refl).2.2.2 0 "k" rfl rfl rfl rfl
